import Mathlib

/-!
Verification of the generational-index arena at the core of the Skald
repository (`src/ecs/indexed_array.rs`).

The Rust code is shallowly embedded: `usize` and `u64` fields become `Nat`,
`Vec` becomes `List`, `Option` stays `Option`.  Capacity reservation
(`Vec::with_capacity`, `reserve`) has no observable semantics and is elided;
element-level behaviour (push, indexed read/write, resize) is kept exactly.
`Allocator.allocate` can panic in Rust ("corrupt indexed array", or an
out-of-bounds free-list head); the embedding returns `Option`, with `none`
for the panic.  All other modelled operations are total in Rust on the
states they are called on, and are total here.
-/

namespace Skald

/-- Handle type: `Index { index: usize, version: u64 }`. -/
structure Index where
  index : Nat
  version : Nat
deriving DecidableEq, Repr

/-- `enum AllocatorEntry { Occupied { version: u64 }, Free { next: Option<usize> } }`. -/
inductive AllocatorEntry where
  | occupied (version : Nat)
  | free (next : Option Nat)
deriving DecidableEq, Repr

/-- `struct Allocator { entries, next, version, length }`. -/
structure Allocator where
  entries : List AllocatorEntry
  next : Option Nat
  version : Nat
  length : Nat
deriving DecidableEq, Repr

/-- `Allocator::default()` (capacity reservation elided). -/
def Allocator.default : Allocator :=
  { entries := [], next := none, version := 0, length := 0 }

/-- `Allocator::validate`. -/
def Allocator.validate (a : Allocator) (idx : Index) : Bool :=
  match a.entries[idx.index]? with
  | some (.occupied v) => v == idx.version
  | _ => false

/-- `Allocator::is_allocated`. -/
def Allocator.is_allocated (a : Allocator) (idx : Index) : Bool :=
  match a.entries[idx.index]? with
  | none => false
  | some e =>
    match e with
    | .occupied v => v == idx.version
    | .free _ => false

/-- `Allocator::len`. -/
def Allocator.len (a : Allocator) : Nat :=
  a.entries.length

/-- `Allocator::valid_count`. -/
def Allocator.valid_count (a : Allocator) : Nat :=
  (a.entries.filter fun e =>
    match e with
    | .occupied _ => true
    | _ => false).length

/-- `Allocator::grow`: push one `Free { next: None }` record, return its index
(the `reserve` call only affects capacity and is elided). -/
def Allocator.grow (a : Allocator) : Nat × Allocator :=
  let entries1 := a.entries ++ [.free none]
  (entries1.length - 1, { a with entries := entries1 })

/-- `Allocator::try_allocate`.  The outer `Option` is panic (`none` =
"corrupt indexed array" panic or out-of-bounds free-list head); the inner
`Option` is the Rust return value, paired with the updated state. -/
def Allocator.try_allocate (a : Allocator) : Option (Option (Index × Allocator)) :=
  match a.next with
  | some i =>
    match a.entries[i]? with
    | some (.occupied _) => none
    | some (.free nxt) =>
      some (some (⟨i, a.version⟩, { a with next := nxt }))
    | none => none
  | none => some none

/-- `Allocator::allocate` (`none` = panic propagated from `try_allocate`). -/
def Allocator.allocate (a : Allocator) : Option (Index × Allocator) :=
  match a.try_allocate with
  | none => none
  | some r =>
    let p : Index × Allocator :=
      match r with
      | none =>
        let g := a.grow
        (⟨g.1, g.2.version⟩, g.2)
      | some q => q
    some (p.1, { p.2 with
      entries := p.2.entries.set p.1.index (.occupied p.2.version),
      length := p.2.length + 1 })

/-- `Allocator::deallocate`. -/
def Allocator.deallocate (a : Allocator) (idx : Index) : Allocator :=
  if a.validate idx then
    { a with
      entries := a.entries.set idx.index (.free a.next),
      next := some idx.index,
      version := a.version + 1,
      length := a.length - 1 }
  else a

/-- `Allocator::reset`. -/
def Allocator.reset (_ : Allocator) : Allocator :=
  { entries := [], next := none, version := 0, length := 0 }

/-- `Allocator::index_at`. -/
def Allocator.index_at (a : Allocator) (i : Nat) : Option Index :=
  match a.entries[i]? with
  | some (.occupied v) => some ⟨i, v⟩
  | _ => none

/-- `struct Entry<T> { value: T, version: u64 }`. -/
structure Entry (T : Type) where
  value : T
  version : Nat
deriving DecidableEq, Repr

/-- `struct IndexedArray<T>`: only the value list; the `Rc<RefCell<Allocator>>`
is passed explicitly to the operations that read it. -/
structure IndexedArray (T : Type) where
  list : List (Option (Entry T))
deriving DecidableEq, Repr

/-- `IndexedArray::new`. -/
def IndexedArray.new (T : Type) : IndexedArray T :=
  { list := [] }

/-- `IndexedArray::set`: `resize_with(i + 4, || None)` when `i >= len`,
then write `Some(Entry { version: index.version, value })` at `i`. -/
def IndexedArray.set {T : Type} (st : IndexedArray T) (idx : Index) (value : T) :
    IndexedArray T :=
  let i := idx.index
  let l :=
    if st.list.length ≤ i then
      st.list ++ List.replicate (i + 4 - st.list.length) none
    else st.list
  { list := l.set i (some ⟨value, idx.version⟩) }

/-- `IndexedArray::unset` (out-of-range is a no-op, as in the Rust early return;
`List.set` is already a no-op out of range). -/
def IndexedArray.unset {T : Type} (st : IndexedArray T) (idx : Index) : IndexedArray T :=
  { list := st.list.set idx.index none }

/-- `IndexedArray::get`: present iff the stored tag equals the handle's version. -/
def IndexedArray.get {T : Type} (st : IndexedArray T) (idx : Index) : Option T :=
  match st.list[idx.index]? with
  | some (some entry) =>
    if entry.version == idx.version then some entry.value else none
  | _ => none

/-- `IndexedArray::get_mut`: same lookup semantics as `get`. -/
def IndexedArray.get_mut {T : Type} (st : IndexedArray T) (idx : Index) : Option T :=
  match st.list[idx.index]? with
  | none => none
  | some none => none
  | some (some entry) =>
    if entry.version == idx.version then some entry.value else none

/-- The loop of `Iter::next`, unrolled: walk the store's physical list from
position `i`, skip positions whose `index_at` is `None`, and yield
`(handle, entry.map value)` for the rest. -/
def iterFrom {T : Type} (a : Allocator) (l : List (Option (Entry T))) (i : Nat) :
    List (Index × Option T) :=
  match l with
  | [] => []
  | e :: rest =>
    match a.index_at i with
    | none => iterFrom a rest (i + 1)
    | some idx => (idx, e.map Entry.value) :: iterFrom a rest (i + 1)

/-- `IndexedArray::iter`, as the full list of items the iterator produces
against a fixed allocator state. -/
def IndexedArray.iter {T : Type} (st : IndexedArray T) (a : Allocator) :
    List (Index × Option T) :=
  iterFrom a st.list 0

/-- States reachable from `a` by a sequence of `allocate` / `deallocate`
calls (an `allocate` step exists only when the call returns normally). -/
inductive Reaches : Allocator → Allocator → Prop
  | refl (a : Allocator) : Reaches a a
  | allocStep {a a1 b : Allocator} {h : Index} :
      a.allocate = some (h, a1) → Reaches a1 b → Reaches a b
  | deallocStep {a b : Allocator} (h : Index) :
      Reaches (a.deallocate h) b → Reaches a b

/-- Invariant: every occupied slot's recorded generation is at most the
global counter. -/
abbrev TagInv (a : Allocator) : Prop :=
  ∀ (s g : Nat),
    a.entries[s]? = some (AllocatorEntry.occupied g) → g ≤ a.version

/-- Once established, this pins the handle `h` dead for good: the global
counter has strictly passed `h.version`, and `h`'s slot does not record
`Occupied h.version`. -/
abbrev Dead (h : Index) (a : Allocator) : Prop :=
  h.version < a.version ∧
    a.entries[h.index]? ≠ some (AllocatorEntry.occupied h.version)

/-- While slot `s` still holds `Occupied v` the global counter is at least
`v`; otherwise the counter has strictly passed `v`. -/
abbrev SlotVer (s v : Nat) (a : Allocator) : Prop :=
  (a.entries[s]? = some (AllocatorEntry.occupied v) ∧ v ≤ a.version) ∨
    v < a.version

/-- The free list as a chain threaded through the entries table. -/
inductive FreeChain (entries : List AllocatorEntry) : Option Nat → List Nat → Prop
  | nil : FreeChain entries none []
  | cons {i : Nat} {nxt : Option Nat} {is : List Nat} :
      entries[i]? = some (AllocatorEntry.free nxt) → FreeChain entries nxt is →
      FreeChain entries (some i) (i :: is)

/-- Well-formed free list: some duplicate-free chain threads from `next`
through exactly the `Free` entries of the table. -/
abbrev FreeListWF (a : Allocator) : Prop :=
  ∃ fl : List Nat, FreeChain a.entries a.next fl ∧ fl.Nodup ∧
    ∀ s : Nat, s ∈ fl ↔ ∃ n, a.entries[s]? = some (AllocatorEntry.free n)

/-! ### Basic characterizations of the allocator operations -/

theorem validate_iff (a : Allocator) (h : Index) :
    a.validate h = true ↔ a.entries[h.index]? = some (.occupied h.version) := by
  unfold Allocator.validate
  cases he : a.entries[h.index]? with
  | none => simp
  | some e =>
    cases e with
    | occupied v =>
      simp only [beq_iff_eq, Option.some.injEq, AllocatorEntry.occupied.injEq]
    | free n => simp

theorem is_allocated_eq_validate (a : Allocator) (h : Index) :
    a.is_allocated h = a.validate h := by
  unfold Allocator.is_allocated Allocator.validate
  cases he : a.entries[h.index]? with
  | none => rfl
  | some e => cases e <;> rfl

theorem index_at_some {a : Allocator} {i : Nat} {idx : Index}
    (H : a.index_at i = some idx) :
    idx.index = i ∧ a.entries[i]? = some (.occupied idx.version) := by
  unfold Allocator.index_at at H
  cases he : a.entries[i]? with
  | none => rw [he] at H; exact absurd H (by simp)
  | some e =>
    cases e with
    | occupied v =>
      rw [he] at H
      simp only [Option.some.injEq] at H
      subst H
      exact ⟨rfl, rfl⟩
    | free n => rw [he] at H; exact absurd H (by simp)

theorem index_at_of_occupied {a : Allocator} {i v : Nat}
    (H : a.entries[i]? = some (.occupied v)) :
    a.index_at i = some ⟨i, v⟩ := by
  unfold Allocator.index_at
  rw [H]

/-- Lookup in `l ++ [x]` anywhere except the appended position. -/
theorem getElem?_concat_ne {α : Type} (l : List α) (x : α) {j : Nat}
    (h : j ≠ l.length) : (l ++ [x])[j]? = l[j]? := by
  rcases Nat.lt_or_ge j l.length with hlt | hge
  · rw [List.getElem?_append_left hlt]
  · have h1 : l.length < j := Nat.lt_of_le_of_ne hge (Ne.symm h)
    rw [List.getElem?_eq_none hge, List.getElem?_eq_none (by simp; omega)]

theorem allocate_pop {a : Allocator} {i : Nat} {nxt : Option Nat}
    (h1 : a.next = some i) (h2 : a.entries[i]? = some (.free nxt)) :
    a.allocate = some (⟨i, a.version⟩,
      { entries := a.entries.set i (.occupied a.version),
        next := nxt, version := a.version, length := a.length + 1 }) := by
  simp [Allocator.allocate, Allocator.try_allocate, h1, h2]

theorem allocate_grow {a : Allocator} (h1 : a.next = none) :
    a.allocate = some (⟨a.entries.length, a.version⟩,
      { entries := a.entries ++ [.occupied a.version],
        next := none, version := a.version, length := a.length + 1 }) := by
  simp [Allocator.allocate, Allocator.try_allocate, Allocator.grow, h1]

theorem allocate_panic_cases {a : Allocator} {h : Index} {a1 : Allocator}
    (H : a.allocate = some (h, a1)) :
    a.next = none ∨ ∃ i nxt, a.next = some i ∧ a.entries[i]? = some (.free nxt) := by
  cases hn : a.next with
  | none => exact Or.inl rfl
  | some i =>
    cases he : a.entries[i]? with
    | none =>
      exact absurd H (by simp [Allocator.allocate, Allocator.try_allocate, hn, he])
    | some e =>
      cases e with
      | occupied v =>
        exact absurd H (by simp [Allocator.allocate, Allocator.try_allocate, hn, he])
      | free nxt => exact Or.inr ⟨i, nxt, rfl, he⟩

/-- Everything a successful `allocate` does to the state: which entry it
writes, that the written slot was not previously occupied, and how the
counters move. -/
theorem allocate_some_spec {a : Allocator} {h : Index} {a1 : Allocator}
    (H : a.allocate = some (h, a1)) :
    h.version = a.version ∧ a1.version = a.version ∧
    a1.entries[h.index]? = some (.occupied a.version) ∧
    a1.length = a.length + 1 ∧
    a.entries.length ≤ a1.entries.length ∧
    (∀ j, j ≠ h.index → a1.entries[j]? = a.entries[j]?) ∧
    (a.entries[h.index]? = none ∨ ∃ n, a.entries[h.index]? = some (.free n)) := by
  rcases allocate_panic_cases H with hn | ⟨i, nxt, hn, he⟩
  · rw [allocate_grow hn] at H
    injection H with H2
    injection H2 with hh ha
    subst hh
    subst ha
    refine ⟨rfl, rfl, ?_, rfl, by simp, ?_, ?_⟩
    · exact a.entries.getElem?_concat_length _
    · intro j hj
      exact getElem?_concat_ne a.entries _ hj
    · exact Or.inl (List.getElem?_eq_none (Nat.le_refl _))
  · rw [allocate_pop hn he] at H
    injection H with H2
    injection H2 with hh ha
    subst hh
    subst ha
    have hlt : i < a.entries.length := by
      by_contra hge
      rw [List.getElem?_eq_none (Nat.le_of_not_lt hge)] at he
      exact absurd he (by simp)
    refine ⟨rfl, rfl, ?_, rfl, by simp, ?_, Or.inr ⟨nxt, he⟩⟩
    · exact List.getElem?_set_eq_of_lt _ hlt
    · intro j hj
      exact List.getElem?_set_ne (fun hij => hj hij.symm)

theorem deallocate_pos {a : Allocator} {h : Index} (hv : a.validate h = true) :
    a.deallocate h =
      { entries := a.entries.set h.index (.free a.next),
        next := some h.index, version := a.version + 1, length := a.length - 1 } := by
  unfold Allocator.deallocate
  rw [hv]
  rfl

theorem deallocate_neg {a : Allocator} {h : Index} (hv : a.validate h = false) :
    a.deallocate h = a := by
  unfold Allocator.deallocate
  rw [hv]
  rfl

theorem validate_in_range {a : Allocator} {h : Index} (hv : a.validate h = true) :
    h.index < a.entries.length := by
  have H := (validate_iff a h).mp hv
  by_contra hge
  rw [List.getElem?_eq_none (Nat.le_of_not_lt hge)] at H
  exact absurd H (by simp)

/-- Deallocating a handle always leaves it failing validation. -/
theorem validate_deallocate_self (a : Allocator) (h : Index) :
    (a.deallocate h).validate h = false := by
  cases hv : a.validate h with
  | false => rw [deallocate_neg hv]; exact hv
  | true =>
    rw [deallocate_pos hv]
    cases hb : Allocator.validate _ h with
    | false => rfl
    | true =>
      have H := (validate_iff _ h).mp hb
      simp only [List.getElem?_set_eq_of_lt _ (validate_in_range hv)] at H
      cases H

/-! ### Value-store lemmas -/

theorem get_eq_none_of_none {T : Type} {st : IndexedArray T} {h : Index}
    (H : st.list[h.index]? = none) : st.get h = none := by
  unfold IndexedArray.get
  rw [H]

theorem get_eq_none_of_entry_none {T : Type} {st : IndexedArray T} {h : Index}
    (H : st.list[h.index]? = some none) : st.get h = none := by
  unfold IndexedArray.get
  rw [H]

theorem get_of_entry {T : Type} {st : IndexedArray T} {h : Index} {e : Entry T}
    (H : st.list[h.index]? = some (some e)) :
    st.get h = if e.version = h.version then some e.value else none := by
  unfold IndexedArray.get
  rw [H]
  simp only [beq_iff_eq]

/-- The backing list produced by `set`, with the padding made explicit. -/
theorem set_list_eq {T : Type} (st : IndexedArray T) (h : Index) (v : T) :
    (st.set h v).list =
      (if st.list.length ≤ h.index then
        st.list ++ List.replicate (h.index + 4 - st.list.length) none
       else st.list).set h.index (some ⟨v, h.version⟩) := rfl

theorem index_lt_padded_length {T : Type} (st : IndexedArray T) (i : Nat) :
    i < (if st.list.length ≤ i then
          st.list ++ List.replicate (i + 4 - st.list.length) none
         else st.list).length := by
  by_cases hc : st.list.length ≤ i
  · rw [if_pos hc]
    simp only [List.length_append, List.length_replicate]
    omega
  · rw [if_neg hc]
    omega

theorem set_getElem?_self {T : Type} (st : IndexedArray T) (h : Index) (v : T) :
    (st.set h v).list[h.index]? = some (some ⟨v, h.version⟩) := by
  rw [set_list_eq]
  exact List.getElem?_set_eq_of_lt _ (index_lt_padded_length st h.index)

theorem get_set_same {T : Type} (st : IndexedArray T) (h : Index) (v : T) :
    (st.set h v).get h = some v := by
  rw [get_of_entry (set_getElem?_self st h v)]
  simp

theorem get_set_same_slot_ne_version {T : Type} (st : IndexedArray T)
    {h h2 : Index} (v2 : T) (hi : h2.index = h.index)
    (hv : h2.version ≠ h.version) : (st.set h2 v2).get h = none := by
  have He : (st.set h2 v2).list[h.index]? = some (some ⟨v2, h2.version⟩) := by
    rw [← hi]
    exact set_getElem?_self st h2 v2
  rw [get_of_entry He]
  simp [hv]

theorem get_unset {T : Type} (st : IndexedArray T) (h : Index) :
    (st.unset h).get h = none := by
  have hl : (st.unset h).list = st.list.set h.index none := rfl
  rcases Nat.lt_or_ge h.index st.list.length with hlt | hge
  · exact get_eq_none_of_entry_none (by rw [hl, List.getElem?_set_eq_of_lt _ hlt])
  · exact get_eq_none_of_none (by rw [hl]; exact List.getElem?_eq_none (by simp [hge]))

/-! ### C4 and C5 -/

/-- C4: in every Allocator state, two handles that both pass validation and
share a slot are one and the same handle — no two distinct simultaneously-live
handles ever share a slot (and thus no two distinct live handles are equal as
`(slot, generation)` pairs). -/
theorem c4_live_handle_uniqueness (a : Allocator) (h1 h2 : Index)
    (hv1 : a.validate h1 = true) (hv2 : a.validate h2 = true)
    (hi : h1.index = h2.index) : h1 = h2 := by
  have H1 := (validate_iff a h1).mp hv1
  have H2 := (validate_iff a h2).mp hv2
  rw [hi] at H1
  have H3 := H1.symm.trans H2
  simp only [Option.some.injEq, AllocatorEntry.occupied.injEq] at H3
  cases h1 with
  | mk i1 v1 =>
    cases h2 with
    | mk i2 v2 => simp_all

/-- C4 witness: the theorem applied at a concrete one-slot allocator. -/
theorem c4_live_handle_uniqueness_witness :
    (Allocator.mk [.occupied 0] none 0 1).validate ⟨0, 0⟩ = true ∧
    (⟨0, 0⟩ : Index) = ⟨0, 0⟩ :=
  ⟨by decide,
   c4_live_handle_uniqueness (Allocator.mk [.occupied 0] none 0 1) ⟨0, 0⟩ ⟨0, 0⟩
     (by decide) (by decide) rfl⟩

/-- C5: `deallocate` on a handle that fails validation is a silent no-op that
leaves the whole Allocator state unchanged; in particular deallocating the
same handle a second time changes nothing and does not decrement
`valid_count` again. -/
theorem c5_deallocate_invalid_noop (a : Allocator) (h : Index) :
    (a.validate h = false → a.deallocate h = a) ∧
    (a.deallocate h).deallocate h = a.deallocate h ∧
    ((a.deallocate h).deallocate h).valid_count = (a.deallocate h).valid_count := by
  have hsecond : (a.deallocate h).deallocate h = a.deallocate h :=
    deallocate_neg (validate_deallocate_self a h)
  exact ⟨fun hv => deallocate_neg hv, hsecond, by rw [hsecond]⟩

/-- C5 witness: the theorem applied to a never-issued handle on the empty
allocator and to a double deallocation of a live handle. -/
theorem c5_deallocate_invalid_noop_witness :
    Allocator.default.validate ⟨0, 0⟩ = false ∧
    Allocator.default.deallocate ⟨0, 0⟩ = Allocator.default ∧
    ((Allocator.mk [.occupied 0] none 0 1).deallocate ⟨0, 0⟩).deallocate ⟨0, 0⟩ =
      (Allocator.mk [.occupied 0] none 0 1).deallocate ⟨0, 0⟩ :=
  ⟨by decide,
   (c5_deallocate_invalid_noop Allocator.default ⟨0, 0⟩).1 (by decide),
   (c5_deallocate_invalid_noop (Allocator.mk [.occupied 0] none 0 1) ⟨0, 0⟩).2.1⟩

/-! ### C1 and C7 -/

/-- C1 counterexample: from the empty allocator, allocate the handle
`(0, 0)`, store `5` for it, and deallocate it.  The deallocation succeeds
(the handle validated beforehand and fails validation afterwards), `unset`
was never called and the slot was never reused, yet `get` on the store still
returns `some 5`, not absent — `IndexedArray::get` compares the stored tag
with the handle's own version and never consults the Allocator. -/
theorem c1_lazy_deletion_counterexample :
    Allocator.default.allocate =
      some (⟨0, 0⟩, Allocator.mk [.occupied 0] none 0 1) ∧
    (Allocator.mk [.occupied 0] none 0 1).validate ⟨0, 0⟩ = true ∧
    ((Allocator.mk [.occupied 0] none 0 1).deallocate ⟨0, 0⟩).validate ⟨0, 0⟩ = false ∧
    ((IndexedArray.new Nat).set ⟨0, 0⟩ 5).get ⟨0, 0⟩ = some 5 ∧
    ((IndexedArray.new Nat).set ⟨0, 0⟩ 5).get ⟨0, 0⟩ ≠ none := by
  decide

/-- C1 (amended): after `deallocate(h)` succeeds the handle is dead for the
Allocator, but a Value Store holding `set(h, v)` still answers `get(h) = v`
(deallocation does not touch any store and `get` checks only the stored tag
against the handle's version); the value reads absent only once `unset(h)`
is called (or the position is overwritten under a different generation). -/
theorem c1_amended_lazy_deletion {T : Type} (a : Allocator) (st : IndexedArray T)
    (h : Index) (v : T) (_hv : a.validate h = true) :
    (a.deallocate h).validate h = false ∧
    (st.set h v).get h = some v ∧
    ((st.set h v).unset h).get h = none :=
  ⟨validate_deallocate_self a h, get_set_same st h v, get_unset _ h⟩

/-- C1 witness: the amended theorem applied at the counterexample input. -/
theorem c1_amended_lazy_deletion_witness :
    (Allocator.mk [.occupied 0] none 0 1).validate ⟨0, 0⟩ = true ∧
    (((Allocator.mk [.occupied 0] none 0 1).deallocate ⟨0, 0⟩).validate ⟨0, 0⟩ = false ∧
     ((IndexedArray.new Nat).set ⟨0, 0⟩ 5).get ⟨0, 0⟩ = some 5 ∧
     (((IndexedArray.new Nat).set ⟨0, 0⟩ 5).unset ⟨0, 0⟩).get ⟨0, 0⟩ = none) :=
  ⟨by decide,
   c1_amended_lazy_deletion (Allocator.mk [.occupied 0] none 0 1)
     (IndexedArray.new Nat) ⟨0, 0⟩ 5 (by decide)⟩

/-- C7: a freshly allocated handle round-trips its value through `set`/`get`;
after deallocating it, a fresh allocation that reuses the same physical slot
carries a strictly greater generation, and once the new handle stores a fresh
value, `get` with the old handle is absent while `get` with the new handle
returns the new value. -/
theorem c7_reuse_round_trip {T : Type} (a0 a1 a2 : Allocator)
    (st : IndexedArray T) (h h2 : Index) (v v2 : T)
    (H1 : a0.allocate = some (h, a1))
    (H2 : (a1.deallocate h).allocate = some (h2, a2))
    (hi : h2.index = h.index) :
    (st.set h v).get h = some v ∧
    h.version < h2.version ∧
    ((st.set h v).set h2 v2).get h = none ∧
    ((st.set h v).set h2 v2).get h2 = some v2 := by
  obtain ⟨hver, hver1, hocc, -, -, -, -⟩ := allocate_some_spec H1
  have hv1 : a1.validate h = true := (validate_iff a1 h).mpr (by rw [hocc, hver])
  have hd := deallocate_pos hv1
  obtain ⟨hver2, -, -, -, -, -, -⟩ := allocate_some_spec H2
  have hlt : h.version < h2.version := by
    rw [hver2, hd, hver, hver1]
    exact Nat.lt_succ_self _
  exact ⟨get_set_same st h v, hlt,
    get_set_same_slot_ne_version _ v2 hi (Nat.ne_of_lt hlt).symm,
    get_set_same (st.set h v) h2 v2⟩

/-- C7 witness: the theorem applied to the concrete run
allocate → deallocate → allocate on the empty allocator, with values 1, 2. -/
theorem c7_reuse_round_trip_witness :
    Allocator.default.allocate = some (⟨0, 0⟩, Allocator.mk [.occupied 0] none 0 1) ∧
    ((Allocator.mk [.occupied 0] none 0 1).deallocate ⟨0, 0⟩).allocate =
      some (⟨0, 1⟩, Allocator.mk [.occupied 1] none 1 1) ∧
    (((IndexedArray.new Nat).set ⟨0, 0⟩ 1).get ⟨0, 0⟩ = some 1 ∧
     (⟨0, 0⟩ : Index).version < (⟨0, 1⟩ : Index).version ∧
     (((IndexedArray.new Nat).set ⟨0, 0⟩ 1).set ⟨0, 1⟩ 2).get ⟨0, 0⟩ = none ∧
     (((IndexedArray.new Nat).set ⟨0, 0⟩ 1).set ⟨0, 1⟩ 2).get ⟨0, 1⟩ = some 2) :=
  ⟨by decide, by decide,
   c7_reuse_round_trip Allocator.default (Allocator.mk [.occupied 0] none 0 1)
     (Allocator.mk [.occupied 1] none 1 1) (IndexedArray.new Nat)
     ⟨0, 0⟩ ⟨0, 1⟩ 1 2 (by decide) (by decide) rfl⟩

/-! ### Iterator lemmas -/

theorem iterFrom_nil {T : Type} (a : Allocator) (i : Nat) :
    iterFrom a ([] : List (Option (Entry T))) i = [] := rfl

theorem iterFrom_cons_none {T : Type} (a : Allocator) (e : Option (Entry T))
    (rest : List (Option (Entry T))) (i : Nat) (hx : a.index_at i = none) :
    iterFrom a (e :: rest) i = iterFrom a rest (i + 1) := by
  have h0 : iterFrom a (e :: rest) i =
      match a.index_at i with
      | none => iterFrom a rest (i + 1)
      | some idx => (idx, e.map Entry.value) :: iterFrom a rest (i + 1) := rfl
  rw [h0, hx]

theorem iterFrom_cons_some {T : Type} (a : Allocator) (e : Option (Entry T))
    (rest : List (Option (Entry T))) (i : Nat) (idx : Index)
    (hx : a.index_at i = some idx) :
    iterFrom a (e :: rest) i = (idx, e.map Entry.value) :: iterFrom a rest (i + 1) := by
  have h0 : iterFrom a (e :: rest) i =
      match a.index_at i with
      | none => iterFrom a rest (i + 1)
      | some idx0 => (idx0, e.map Entry.value) :: iterFrom a rest (i + 1) := rfl
  rw [h0, hx]

/-- Which handles the iterator loop produces, position by position. -/
theorem mem_map_fst_iterFrom {T : Type} (a : Allocator)
    (l : List (Option (Entry T))) :
    ∀ (i0 : Nat) (idx : Index),
      idx ∈ (iterFrom a l i0).map Prod.fst ↔
        ∃ j, j < l.length ∧ a.index_at (i0 + j) = some idx := by
  induction l with
  | nil =>
    intro i0 idx
    simp [iterFrom_nil]
  | cons e rest ih =>
    intro i0 idx
    cases hx : a.index_at i0 with
    | none =>
      rw [iterFrom_cons_none a e rest i0 hx, ih (i0 + 1) idx]
      constructor
      · rintro ⟨j, hj, hij⟩
        refine ⟨j + 1, by simp only [List.length_cons]; omega, ?_⟩
        have harith : i0 + (j + 1) = i0 + 1 + j := by omega
        rw [harith]
        exact hij
      · rintro ⟨j, hj, hij⟩
        cases j with
        | zero =>
          rw [Nat.add_zero, hx] at hij
          exact absurd hij (by simp)
        | succ j =>
          refine ⟨j, by simp only [List.length_cons] at hj; omega, ?_⟩
          have harith : i0 + 1 + j = i0 + (j + 1) := by omega
          rw [harith]
          exact hij
    | some idx0 =>
      rw [iterFrom_cons_some a e rest i0 idx0 hx]
      simp only [List.map_cons, List.mem_cons, ih (i0 + 1) idx]
      constructor
      · rintro (h1 | ⟨j, hj, hij⟩)
        · refine ⟨0, by simp, ?_⟩
          rw [Nat.add_zero, hx, h1]
        · refine ⟨j + 1, by simp only [List.length_cons]; omega, ?_⟩
          have harith : i0 + (j + 1) = i0 + 1 + j := by omega
          rw [harith]
          exact hij
      · rintro ⟨j, hj, hij⟩
        cases j with
        | zero =>
          rw [Nat.add_zero, hx] at hij
          simp only [Option.some.injEq] at hij
          exact Or.inl hij.symm
        | succ j =>
          refine Or.inr ⟨j, by simp only [List.length_cons] at hj; omega, ?_⟩
          have harith : i0 + 1 + j = i0 + (j + 1) := by omega
          rw [harith]
          exact hij

/-- The iterator loop yields the pair at any position it visits. -/
theorem mem_iterFrom_of_getElem {T : Type} (a : Allocator)
    (l : List (Option (Entry T))) :
    ∀ (i0 j : Nat) (e : Option (Entry T)) (idx : Index),
      l[j]? = some e → a.index_at (i0 + j) = some idx →
      (idx, e.map Entry.value) ∈ iterFrom a l i0 := by
  induction l with
  | nil =>
    intro i0 j e idx hje
    simp at hje
  | cons e0 rest ih =>
    intro i0 j e idx hje hx
    cases j with
    | zero =>
      simp only [List.getElem?_cons_zero, Option.some.injEq] at hje
      rw [Nat.add_zero] at hx
      rw [iterFrom_cons_some a e0 rest i0 idx hx, hje]
      exact List.mem_cons_self _ _
    | succ j =>
      have hje1 : rest[j]? = some e := by simpa using hje
      have hx1 : a.index_at (i0 + 1 + j) = some idx := by
        have harith : i0 + 1 + j = i0 + (j + 1) := by omega
        rw [harith]
        exact hx
      cases hx0 : a.index_at i0 with
      | none =>
        rw [iterFrom_cons_none a e0 rest i0 hx0]
        exact ih (i0 + 1) j e idx hje1 hx1
      | some idx0 =>
        rw [iterFrom_cons_some a e0 rest i0 idx0 hx0]
        exact List.mem_cons_of_mem _ (ih (i0 + 1) j e idx hje1 hx1)

/-! ### C2, C9 and C10 -/

/-- C2 counterexample: one handle `(0, 0)` is live and the Allocator reports
its slot occupied (`index_at 0` is `some (0, 0)`, `valid_count = 1`), but a
store on which `set` was never called has an empty physical list, so `iter`
yields nothing at all — the yielded handle set misses an occupied slot. -/
theorem c2_iteration_counterexample :
    Allocator.default.allocate =
      some (⟨0, 0⟩, Allocator.mk [.occupied 0] none 0 1) ∧
    (Allocator.mk [.occupied 0] none 0 1).index_at 0 = some ⟨0, 0⟩ ∧
    (Allocator.mk [.occupied 0] none 0 1).valid_count = 1 ∧
    (IndexedArray.new Nat).iter (Allocator.mk [.occupied 0] none 0 1) = [] := by
  decide

/-- C2 (amended): `iter()` yields exactly one pair per physical position of
the store's own backing list that the Allocator currently reports occupied —
a handle is produced iff its slot lies below the store's physical length and
`index_at` reports it occupied; occupied slots at or beyond the store's
physical length are omitted. -/
theorem c2_amended_iteration {T : Type} (a : Allocator) (st : IndexedArray T)
    (idx : Index) :
    idx ∈ (st.iter a).map Prod.fst ↔
      idx.index < st.list.length ∧ a.index_at idx.index = some idx := by
  unfold IndexedArray.iter
  rw [mem_map_fst_iterFrom]
  constructor
  · rintro ⟨j, hj, hij⟩
    rw [Nat.zero_add] at hij
    obtain ⟨hidx, -⟩ := index_at_some hij
    rw [hidx]
    exact ⟨hj, hij⟩
  · rintro ⟨hlt, hloc⟩
    refine ⟨idx.index, hlt, ?_⟩
    rw [Nat.zero_add]
    exact hloc

/-- C9: iteration does not generation-check the stored value — at a position
the Allocator reports occupied at generation `g2`, a store that physically
holds a value written under an earlier generation `g ≠ g2` is yielded as
`Some value` paired with the current-generation handle, even though `get`
with that same handle returns absent. -/
theorem c9_iter_yields_stale {T : Type} (a : Allocator) (st : IndexedArray T)
    (i g g2 : Nat) (x : T)
    (hst : st.list[i]? = some (some ⟨x, g⟩))
    (ha : a.entries[i]? = some (.occupied g2))
    (hne : g ≠ g2) :
    ((⟨i, g2⟩ : Index), some x) ∈ st.iter a ∧ st.get ⟨i, g2⟩ = none := by
  constructor
  · have hx : a.index_at (0 + i) = some ⟨i, g2⟩ := by
      rw [Nat.zero_add]
      exact index_at_of_occupied ha
    exact mem_iterFrom_of_getElem a st.list 0 i (some ⟨x, g⟩) ⟨i, g2⟩ hst hx
  · rw [get_of_entry hst]
    simp [hne]

/-- C9 witness: the theorem applied to a one-slot store holding a value
tagged with generation 0 while the Allocator reports generation 1. -/
theorem c9_iter_yields_stale_witness :
    (IndexedArray.mk [some ⟨7, 0⟩] : IndexedArray Nat).list[0]? = some (some ⟨7, 0⟩) ∧
    (Allocator.mk [.occupied 1] none 1 1).entries[0]? = some (.occupied 1) ∧
    (0 : Nat) ≠ 1 ∧
    (((⟨0, 1⟩ : Index), some 7) ∈
        (IndexedArray.mk [some ⟨7, 0⟩] : IndexedArray Nat).iter
          (Allocator.mk [.occupied 1] none 1 1) ∧
     (IndexedArray.mk [some ⟨7, 0⟩] : IndexedArray Nat).get ⟨0, 1⟩ = none) :=
  ⟨by decide, by decide, by decide,
   c9_iter_yields_stale (Allocator.mk [.occupied 1] none 1 1)
     (IndexedArray.mk [some ⟨7, 0⟩]) 0 0 1 7 (by decide) (by decide) (by decide)⟩

/-- C10: `reset` clears the slot table and puts the global generation counter
back to 0, so the no-resurrection guarantee does not survive a reset: the
handle `(0, 0)` is issued and then successfully deallocated (it fails
validation afterwards), yet after `reset` the very next `allocate` re-issues
`(0, 0)` and the old handle validates as live again. -/
theorem c10_reset_resets_generation :
    (∀ a : Allocator, (a.reset).version = 0 ∧ (a.reset).entries = []) ∧
    Allocator.default.allocate =
      some (⟨0, 0⟩, Allocator.mk [.occupied 0] none 0 1) ∧
    (Allocator.mk [.occupied 0] none 0 1).validate ⟨0, 0⟩ = true ∧
    ((Allocator.mk [.occupied 0] none 0 1).deallocate ⟨0, 0⟩).validate ⟨0, 0⟩ = false ∧
    ((Allocator.mk [.occupied 0] none 0 1).deallocate ⟨0, 0⟩).version = 1 ∧
    (((Allocator.mk [.occupied 0] none 0 1).deallocate ⟨0, 0⟩).reset).allocate =
      some (⟨0, 0⟩, Allocator.mk [.occupied 0] none 0 1) ∧
    (Allocator.mk [.occupied 0] none 0 1).validate ⟨0, 0⟩ = true :=
  ⟨fun _ => ⟨rfl, rfl⟩, by decide⟩


/-! ### Trace invariants and C3 -/

theorem lt_length_of_getElem?_some {α : Type} {l : List α} {i : Nat} {x : α}
    (H : l[i]? = some x) : i < l.length := by
  by_contra hge
  rw [List.getElem?_eq_none (Nat.le_of_not_lt hge)] at H
  exact absurd H (by simp)

theorem deallocate_fields_pos {a : Allocator} {h : Index} (hv : a.validate h = true) :
    (a.deallocate h).entries = a.entries.set h.index (.free a.next) ∧
    (a.deallocate h).next = some h.index ∧
    (a.deallocate h).version = a.version + 1 ∧
    (a.deallocate h).length = a.length - 1 := by
  rw [deallocate_pos hv]
  exact ⟨rfl, rfl, rfl, rfl⟩

theorem tagInv_default : TagInv Allocator.default := by
  intro s g hg
  simp [Allocator.default] at hg

theorem tagInv_allocate {a a1 : Allocator} {h : Index}
    (ha : TagInv a) (H : a.allocate = some (h, a1)) : TagInv a1 := by
  obtain ⟨-, hver1, hocc, -, -, hother, -⟩ := allocate_some_spec H
  intro s g hg
  rw [hver1]
  by_cases hs : s = h.index
  · subst hs
    rw [hocc] at hg
    simp only [Option.some.injEq, AllocatorEntry.occupied.injEq] at hg
    exact Nat.le_of_eq hg.symm
  · rw [hother s hs] at hg
    exact ha s g hg

theorem tagInv_deallocate {a : Allocator} (h : Index) (ha : TagInv a) :
    TagInv (a.deallocate h) := by
  cases hv : a.validate h with
  | false => rw [deallocate_neg hv]; exact ha
  | true =>
    obtain ⟨he, -, hver, -⟩ := deallocate_fields_pos hv
    intro s g hg
    rw [hver]
    rw [he] at hg
    by_cases hs : s = h.index
    · subst hs
      rw [List.getElem?_set_eq_of_lt _ (validate_in_range hv)] at hg
      simp at hg
    · rw [List.getElem?_set_ne (fun hc => hs hc.symm)] at hg
      exact Nat.le_succ_of_le (ha s g hg)

theorem tagInv_reaches {a b : Allocator} (H : Reaches a b) (ha : TagInv a) :
    TagInv b := by
  induction H with
  | refl a => exact ha
  | allocStep hs _ ih => exact ih (tagInv_allocate ha hs)
  | deallocStep h2 _ ih => exact ih (tagInv_deallocate h2 ha)

theorem dead_validate {h : Index} {a : Allocator} (hd : Dead h a) :
    a.validate h = false := by
  cases hb : a.validate h with
  | false => rfl
  | true => exact absurd ((validate_iff a h).mp hb) hd.2

theorem dead_allocate {h : Index} {a a1 : Allocator} {h2 : Index}
    (hd : Dead h a) (H : a.allocate = some (h2, a1)) : Dead h a1 := by
  obtain ⟨-, hver1, hocc, -, -, hother, -⟩ := allocate_some_spec H
  constructor
  · rw [hver1]
    exact hd.1
  · by_cases hs : h.index = h2.index
    · rw [hs, hocc]
      intro hc
      simp only [Option.some.injEq, AllocatorEntry.occupied.injEq] at hc
      have h1 := hd.1
      rw [hc] at h1
      exact Nat.lt_irrefl _ h1
    · rw [hother h.index hs]
      exact hd.2

theorem dead_deallocate {h : Index} {a : Allocator} (h2 : Index)
    (hd : Dead h a) : Dead h (a.deallocate h2) := by
  cases hv : a.validate h2 with
  | false => rw [deallocate_neg hv]; exact hd
  | true =>
    obtain ⟨he, -, hver, -⟩ := deallocate_fields_pos hv
    constructor
    · rw [hver]
      exact Nat.lt_succ_of_lt hd.1
    · rw [he]
      by_cases hs : h.index = h2.index
      · rw [hs, List.getElem?_set_eq_of_lt _ (validate_in_range hv)]
        intro hc
        simp at hc
      · rw [List.getElem?_set_ne (fun hc => hs hc.symm)]
        exact hd.2

theorem dead_reaches {h : Index} {a b : Allocator}
    (H : Reaches a b) (hd : Dead h a) : Dead h b := by
  induction H with
  | refl a => exact hd
  | allocStep hs _ ih => exact ih (dead_allocate hd hs)
  | deallocStep h2 _ ih => exact ih (dead_deallocate h2 hd)

/-- C3: in any run of `allocate`/`deallocate` calls from the initial
allocator, once `deallocate(h)` succeeds (`h` validated at that point), `h`
fails `validate` and `is_allocated` in every later state of the run, even if
the same physical slot is reused by later allocations. -/
theorem c3_no_resurrection (a b : Allocator) (h : Index)
    (hreach : Reaches Allocator.default a)
    (hv : a.validate h = true)
    (hafter : Reaches (a.deallocate h) b) :
    b.validate h = false ∧ b.is_allocated h = false := by
  have htag : TagInv a := tagInv_reaches hreach tagInv_default
  have hd0 : Dead h (a.deallocate h) := by
    obtain ⟨he, -, hver, -⟩ := deallocate_fields_pos hv
    constructor
    · rw [hver]
      exact Nat.lt_succ_of_le (htag h.index h.version ((validate_iff a h).mp hv))
    · rw [he, List.getElem?_set_eq_of_lt _ (validate_in_range hv)]
      simp
  have hd := dead_reaches hafter hd0
  have hval := dead_validate hd
  refine ⟨hval, ?_⟩
  rw [is_allocated_eq_validate]
  exact hval

/-- C3 witness: allocate `(0,0)`, deallocate it, reuse the slot; the retired
handle stays invalid in the reused state. -/
theorem c3_no_resurrection_witness :
    Reaches Allocator.default (Allocator.mk [.occupied 0] none 0 1) ∧
    (Allocator.mk [.occupied 0] none 0 1).validate ⟨0, 0⟩ = true ∧
    Reaches ((Allocator.mk [.occupied 0] none 0 1).deallocate ⟨0, 0⟩)
      (Allocator.mk [.occupied 1] none 1 1) ∧
    ((Allocator.mk [.occupied 1] none 1 1).validate ⟨0, 0⟩ = false ∧
     (Allocator.mk [.occupied 1] none 1 1).is_allocated ⟨0, 0⟩ = false) := by
  have hstep1 : Allocator.default.allocate =
      some (⟨0, 0⟩, Allocator.mk [.occupied 0] none 0 1) := by decide
  have h1 : Reaches Allocator.default (Allocator.mk [.occupied 0] none 0 1) :=
    Reaches.allocStep hstep1 (Reaches.refl _)
  have h3 : Reaches ((Allocator.mk [.occupied 0] none 0 1).deallocate ⟨0, 0⟩)
      (Allocator.mk [.occupied 1] none 1 1) := by
    have hstep2 : (Allocator.mk [.free none] (some 0) 1 0).allocate =
        some (⟨0, 1⟩, Allocator.mk [.occupied 1] none 1 1) := by decide
    have hd : (Allocator.mk [.occupied 0] none 0 1).deallocate ⟨0, 0⟩ =
        Allocator.mk [.free none] (some 0) 1 0 := by decide
    rw [hd]
    exact Reaches.allocStep hstep2 (Reaches.refl _)
  exact ⟨h1, by decide, h3,
    c3_no_resurrection (Allocator.mk [.occupied 0] none 0 1)
      (Allocator.mk [.occupied 1] none 1 1) ⟨0, 0⟩ h1 (by decide) h3⟩


/-! ### Slot generation tracking and C6 -/

theorem slotVer_allocate {s v : Nat} {a a1 : Allocator} {h2 : Index}
    (hs : SlotVer s v a) (H : a.allocate = some (h2, a1)) : SlotVer s v a1 := by
  obtain ⟨-, hver1, hocc, -, -, hother, hold⟩ := allocate_some_spec H
  rcases hs with ⟨hocc0, hle⟩ | hlt
  · left
    refine ⟨?_, ?_⟩
    · by_cases hidx : s = h2.index
      · subst hidx
        rcases hold with hnone | ⟨n, hfree⟩
        · rw [hocc0] at hnone
          exact absurd hnone (by simp)
        · rw [hocc0] at hfree
          simp at hfree
      · rw [hother s hidx]
        exact hocc0
    · rw [hver1]
      exact hle
  · right
    rw [hver1]
    exact hlt

theorem slotVer_deallocate {s v : Nat} {a : Allocator} (h2 : Index)
    (hs : SlotVer s v a) : SlotVer s v (a.deallocate h2) := by
  cases hv : a.validate h2 with
  | false => rw [deallocate_neg hv]; exact hs
  | true =>
    obtain ⟨he, -, hver, -⟩ := deallocate_fields_pos hv
    rcases hs with ⟨hocc0, hle⟩ | hlt
    · by_cases hidx : s = h2.index
      · right
        rw [hver]
        omega
      · left
        refine ⟨?_, ?_⟩
        · rw [he, List.getElem?_set_ne (fun hc => hidx hc.symm)]
          exact hocc0
        · rw [hver]
          omega
    · right
      rw [hver]
      omega

theorem slotVer_reaches {s v : Nat} {a b : Allocator}
    (H : Reaches a b) (hs : SlotVer s v a) : SlotVer s v b := by
  induction H with
  | refl a => exact hs
  | allocStep hstep _ ih => exact ih (slotVer_allocate hs hstep)
  | deallocStep h2 _ ih => exact ih (slotVer_deallocate h2 hs)

/-- C6: if a handle `h` is issued for a slot and, any number of
allocate/deallocate calls later, a handle `h2` is issued for the same slot,
then `h2` carries a strictly greater generation than `h` — generations
observed across reuses of one slot strictly increase in issue order. -/
theorem c6_generation_monotonicity (a a1 b b1 : Allocator) (h h2 : Index)
    (H1 : a.allocate = some (h, a1)) (hr : Reaches a1 b)
    (H2 : b.allocate = some (h2, b1)) (hi : h2.index = h.index) :
    h.version < h2.version := by
  obtain ⟨hver, hver1, hocc, -, -, -, -⟩ := allocate_some_spec H1
  have hs0 : SlotVer h.index h.version a1 := by
    left
    refine ⟨?_, ?_⟩
    · rw [hver]
      exact hocc
    · rw [hver1, hver]
  have hsb : SlotVer h.index h.version b := slotVer_reaches hr hs0
  obtain ⟨hver2, -, -, -, -, -, hold2⟩ := allocate_some_spec H2
  rw [hi] at hold2
  rcases hsb with ⟨hocc0, -⟩ | hlt
  · rcases hold2 with hnone | ⟨n, hfree⟩
    · rw [hocc0] at hnone
      exact absurd hnone (by simp)
    · rw [hocc0] at hfree
      simp at hfree
  · rw [hver2]
    exact hlt

/-- C6 witness: the slot of handle `(0,0)` is deallocated and re-issued as
`(0,1)`; the generations strictly increase. -/
theorem c6_generation_monotonicity_witness :
    Allocator.default.allocate =
      some (⟨0, 0⟩, Allocator.mk [.occupied 0] none 0 1) ∧
    Reaches (Allocator.mk [.occupied 0] none 0 1)
      (Allocator.mk [.free none] (some 0) 1 0) ∧
    (Allocator.mk [.free none] (some 0) 1 0).allocate =
      some (⟨0, 1⟩, Allocator.mk [.occupied 1] none 1 1) ∧
    (⟨0, 0⟩ : Index).version < (⟨0, 1⟩ : Index).version := by
  have h2 : Reaches (Allocator.mk [.occupied 0] none 0 1)
      (Allocator.mk [.free none] (some 0) 1 0) := by
    refine Reaches.deallocStep ⟨0, 0⟩ ?_
    have hd : (Allocator.mk [.occupied 0] none 0 1).deallocate ⟨0, 0⟩ =
        Allocator.mk [.free none] (some 0) 1 0 := by decide
    rw [hd]
    exact Reaches.refl _
  refine ⟨by decide, h2, by decide, ?_⟩
  exact c6_generation_monotonicity Allocator.default
    (Allocator.mk [.occupied 0] none 0 1)
    (Allocator.mk [.free none] (some 0) 1 0)
    (Allocator.mk [.occupied 1] none 1 1)
    ⟨0, 0⟩ ⟨0, 1⟩ (by decide) h2 (by decide) rfl


/-! ### Free-list well-formedness and C8 -/

theorem freeChain_set_notMem {entries : List AllocatorEntry} {o : Option Nat}
    {fl : List Nat} (p : Nat) (e : AllocatorEntry)
    (H : FreeChain entries o fl) (hp : p ∉ fl) :
    FreeChain (entries.set p e) o fl := by
  induction H with
  | nil => exact FreeChain.nil
  | @cons i nxt is hj hrest ih =>
    have hpi : p ≠ i := fun hc => hp (hc ▸ List.mem_cons_self _ _)
    refine FreeChain.cons ?_ (ih (fun hmem => hp (List.mem_cons_of_mem _ hmem)))
    rw [List.getElem?_set_ne hpi]
    exact hj

theorem freeListWF_default : FreeListWF Allocator.default := by
  refine ⟨[], FreeChain.nil, List.nodup_nil, ?_⟩
  intro s
  simp [Allocator.default]

theorem freeListWF_allocate_total {a : Allocator} (hw : FreeListWF a) :
    ∃ h a1, a.allocate = some (h, a1) := by
  obtain ⟨fl, hchain, -, -⟩ := hw
  cases hn : a.next with
  | none => exact ⟨_, _, allocate_grow hn⟩
  | some i =>
    rw [hn] at hchain
    cases hchain with
    | cons hj hrest => exact ⟨_, _, allocate_pop hn hj⟩

theorem freeListWF_allocate {a a1 : Allocator} {h : Index} (hw : FreeListWF a)
    (H : a.allocate = some (h, a1)) : FreeListWF a1 := by
  obtain ⟨fl, hchain, hnodup, hmem⟩ := hw
  cases hn : a.next with
  | none =>
    rw [hn] at hchain
    cases hchain
    rw [allocate_grow hn] at H
    injection H with H2
    injection H2 with hh ha
    subst hh
    subst ha
    refine ⟨[], FreeChain.nil, List.nodup_nil, ?_⟩
    intro s
    simp only [List.not_mem_nil, false_iff, not_exists]
    intro n hfree
    by_cases hs : s < a.entries.length
    · rw [List.getElem?_append_left hs] at hfree
      have := (hmem s).mpr ⟨n, hfree⟩
      simp at this
    · by_cases hs2 : s = a.entries.length
      · subst hs2
        rw [a.entries.getElem?_concat_length] at hfree
        simp at hfree
      · rw [getElem?_concat_ne _ _ hs2,
          List.getElem?_eq_none (Nat.le_of_not_lt hs)] at hfree
        exact absurd hfree (by simp)
  | some i =>
    rw [hn] at hchain
    cases hchain with
    | @cons i nxt is hj hrest =>
      rw [allocate_pop hn hj] at H
      injection H with H2
      injection H2 with hh ha
      subst hh
      subst ha
      have hni : i ∉ is := (List.nodup_cons.mp hnodup).1
      refine ⟨is, freeChain_set_notMem i _ hrest hni,
        (List.nodup_cons.mp hnodup).2, ?_⟩
      intro s
      by_cases hsi : s = i
      · subst hsi
        constructor
        · intro hmem2
          exact absurd hmem2 hni
        · rintro ⟨n, hfree⟩
          rw [List.getElem?_set_eq_of_lt _ (lt_length_of_getElem?_some hj)] at hfree
          simp at hfree
      · constructor
        · intro hmem2
          obtain ⟨n, hfree⟩ := (hmem s).mp (List.mem_cons_of_mem _ hmem2)
          refine ⟨n, ?_⟩
          rw [List.getElem?_set_ne (fun hc => hsi hc.symm)]
          exact hfree
        · rintro ⟨n, hfree⟩
          rw [List.getElem?_set_ne (fun hc => hsi hc.symm)] at hfree
          have hin := (hmem s).mpr ⟨n, hfree⟩
          cases List.mem_cons.mp hin with
          | inl hc => exact absurd hc hsi
          | inr hm => exact hm

theorem freeListWF_deallocate {a : Allocator} (h : Index) (hw : FreeListWF a) :
    FreeListWF (a.deallocate h) := by
  cases hv : a.validate h with
  | false => rw [deallocate_neg hv]; exact hw
  | true =>
    obtain ⟨fl, hchain, hnodup, hmem⟩ := hw
    obtain ⟨he, hnx, -, -⟩ := deallocate_fields_pos hv
    have hocc := (validate_iff a h).mp hv
    have hnotin : h.index ∉ fl := by
      intro hc
      obtain ⟨n, hfree⟩ := (hmem h.index).mp hc
      rw [hocc] at hfree
      simp at hfree
    refine ⟨h.index :: fl, ?_, List.nodup_cons.mpr ⟨hnotin, hnodup⟩, ?_⟩
    · rw [he, hnx]
      refine FreeChain.cons ?_ (freeChain_set_notMem h.index _ hchain hnotin)
      rw [List.getElem?_set_eq_of_lt _ (validate_in_range hv)]
    · intro s
      rw [he]
      by_cases hsi : s = h.index
      · subst hsi
        constructor
        · intro _
          refine ⟨a.next, ?_⟩
          rw [List.getElem?_set_eq_of_lt _ (validate_in_range hv)]
        · intro _
          exact List.mem_cons_self _ _
      · rw [List.getElem?_set_ne (fun hc => hsi hc.symm)]
        constructor
        · intro hmem2
          cases List.mem_cons.mp hmem2 with
          | inl hc => exact absurd hc hsi
          | inr hm => exact (hmem s).mp hm
        · intro hex
          exact List.mem_cons_of_mem _ ((hmem s).mpr hex)

theorem freeListWF_reaches {a b : Allocator} (H : Reaches a b)
    (hw : FreeListWF a) : FreeListWF b := by
  induction H with
  | refl a => exact hw
  | allocStep hs _ ih => exact ih (freeListWF_allocate hw hs)
  | deallocStep h2 _ ih => exact ih (freeListWF_deallocate h2 hw)

/-- C8: on every state the allocator can actually be in (reachable by
allocate/deallocate calls from the initial state), `allocate` succeeds and
behaves as specified: with a non-empty free list it pops the head slot
(the new free-list head is the popped record's `next` and the table size is
unchanged); with an empty free list it appends exactly one record and uses
it.  Either way the new slot is marked `Occupied` with the current
generation, the returned handle carries that slot and generation, the live
length counter increases by one, and the table never shrinks. -/
theorem c8_allocate_behaviour (a : Allocator)
    (hreach : Reaches Allocator.default a) :
    ∃ h a1, a.allocate = some (h, a1) ∧
      h.version = a.version ∧ a1.version = a.version ∧
      a1.entries[h.index]? = some (.occupied a.version) ∧
      a1.length = a.length + 1 ∧
      a.entries.length ≤ a1.entries.length ∧
      (∀ i nxt, a.next = some i → a.entries[i]? = some (.free nxt) →
        h.index = i ∧ a1.next = nxt ∧ a1.entries.length = a.entries.length) ∧
      (a.next = none →
        h.index = a.entries.length ∧
        a1.entries.length = a.entries.length + 1) := by
  have hw : FreeListWF a := freeListWF_reaches hreach freeListWF_default
  obtain ⟨fl, hchain, -, -⟩ := hw
  cases hn : a.next with
  | none =>
    refine ⟨_, _, allocate_grow hn, rfl, rfl, ?_, rfl, by simp, ?_, ?_⟩
    · exact a.entries.getElem?_concat_length _
    · intro i nxt hc _
      exact absurd hc (by simp)
    · intro _
      exact ⟨rfl, by simp⟩
  | some i =>
    rw [hn] at hchain
    cases hchain with
    | @cons i nxt is hj hrest =>
      refine ⟨_, _, allocate_pop hn hj, rfl, rfl, ?_, rfl, by simp, ?_, ?_⟩
      · exact List.getElem?_set_eq_of_lt _ (lt_length_of_getElem?_some hj)
      · intro i2 nxt2 hc hfree
        injection hc with hc2
        subst hc2
        rw [hj] at hfree
        injection hfree with hf2
        injection hf2 with hf3
        subst hf3
        exact ⟨rfl, rfl, by simp⟩
      · intro hc
        exact absurd hc (by simp)

/-- C8 witness: the theorem applied to the initial (empty, reachable)
allocator state. -/
theorem c8_allocate_behaviour_witness :
    ∃ h a1, Allocator.default.allocate = some (h, a1) ∧
      h.version = Allocator.default.version ∧
      a1.version = Allocator.default.version ∧
      a1.entries[h.index]? = some (.occupied Allocator.default.version) ∧
      a1.length = Allocator.default.length + 1 ∧
      Allocator.default.entries.length ≤ a1.entries.length ∧
      (∀ i nxt, Allocator.default.next = some i →
        Allocator.default.entries[i]? = some (.free nxt) →
        h.index = i ∧ a1.next = nxt ∧
        a1.entries.length = Allocator.default.entries.length) ∧
      (Allocator.default.next = none →
        h.index = Allocator.default.entries.length ∧
        a1.entries.length = Allocator.default.entries.length + 1) :=
  c8_allocate_behaviour Allocator.default (Reaches.refl _)

end Skald
